import Mathlib

/-!
Shallow embedding of the data-cleaning and filtering core of the
mental-health-care dashboard (`src/main.js`).

Conventions of the embedding:
* JavaScript strings are Lean `String`s (lists of characters); values that may
  be `null`/`undefined` are wrapped in `Option`.
* JavaScript numbers are modelled by `JsNum`: `NaN`, signed infinity, or a
  finite value represented exactly as a rational.  None of the modelled code
  paths depend on binary floating-point rounding.
* `toLowerCase`/`toUpperCase` are modelled as per-character full case
  mappings that may expand a character to several (`upperMap`/`lowerMap`):
  exact on the Basic Latin range and on U+00DF (whose uppercase is `"SS"`),
  fixing the remaining code points; every theorem below quantifies over or
  evaluates at strings inside the exactly-modelled region.
* Whitespace for `trim` is the full ECMAScript WhiteSpace/LineTerminator set.
* Fallible operations (the tooltip's method calls on possibly-null values)
  return `Except`, with `Except.error` marking a thrown `TypeError`.
-/

namespace Dashboard

/-- Whitespace test used by the model of JavaScript `String.prototype.trim`:
the full ECMAScript WhiteSpace and LineTerminator set (TAB, LF, VT, FF, CR,
SP, NBSP, ZWNBSP, the Unicode space separators, LS and PS). -/
def isWsC (c : Char) : Bool :=
  c.toNat == 32 || c.toNat == 9 || c.toNat == 10 || c.toNat == 11 || c.toNat == 12 ||
    c.toNat == 13 || c.toNat == 160 || c.toNat == 5760 ||
    (decide (8192 ≤ c.toNat) && decide (c.toNat ≤ 8202)) ||
    c.toNat == 8232 || c.toNat == 8233 || c.toNat == 8239 || c.toNat == 8287 ||
    c.toNat == 12288 || c.toNat == 65279

/-- Model of JavaScript `str.trim()`: drop whitespace from both ends. -/
def trimCh (l : List Char) : List Char :=
  (l.dropWhile isWsC).rdropWhile isWsC

/-- Model of JavaScript `str.split(" ")`: split at every single space
character; consecutive spaces produce empty fragments. -/
def splitSp : List Char → List (List Char)
  | [] => [[]]
  | c :: rest =>
    match splitSp rest with
    | [] => [[c]]
    | w :: ws => if c = ' ' then [] :: w :: ws else (c :: w) :: ws

/-- Model of JavaScript `words.join(" ")`. -/
def joinSp : List (List Char) → List Char
  | [] => []
  | [w] => w
  | w :: ws => w ++ ' ' :: joinSp ws

/-- One character under JavaScript `String.prototype.toUpperCase`, which uses
the Unicode full uppercase mapping and may expand a character to several:
ASCII letters map to their uppercase, and U+00DF (the sharp s) expands to
`"SS"`.  Every other code point is left fixed; the embedding is exact on the
Basic Latin range and on U+00DF, which covers every string the theorems
below quantify over or evaluate. -/
def upperMap (c : Char) : List Char :=
  if 97 ≤ c.toNat ∧ c.toNat ≤ 122 then [Char.ofNat (c.toNat - 32)]
  else if c.toNat = 223 then ['S', 'S']
  else [c]

/-- One character under JavaScript `String.prototype.toLowerCase` (Unicode
full lowercase mapping): ASCII letters map to their lowercase; every other
code point is left fixed — exact on the Basic Latin range and on U+00DF
(which lowercases to itself), the scope of the theorems below. -/
def lowerMap (c : Char) : List Char :=
  if 65 ≤ c.toNat ∧ c.toNat ≤ 90 then [Char.ofNat (c.toNat + 32)]
  else [c]

/-- JavaScript `str.toLowerCase()`: the concatenation of the full lowercase
mappings of the characters. -/
def jsToLower (l : List Char) : List Char :=
  (l.map lowerMap).flatten

/-- Model of `word.charAt(0).toUpperCase() + word.slice(1)` from `cleanString`
(line 30 of `src/main.js`); on the empty word, `charAt(0)` is `""` and the
result is the empty word again.  The uppercased first character may expand
(for example `"ß"` becomes `"SS"`). -/
def capWord (w : List Char) : List Char :=
  match w with
  | [] => []
  | c :: rest => upperMap c ++ rest

/-- The string pipeline of `cleanString` (lines 27-31 of `src/main.js`):
trim, lowercase, split on single spaces, capitalize each word, rejoin. -/
def cleanStringCore (l : List Char) : List Char :=
  joinSp (List.map capWord (splitSp (jsToLower (trimCh l))))

/-- The capitalization step specialized to characters whose case mappings do
not expand: prepend `Char.toUpper` of the head.  On such words it agrees
with `capWord`; it is the vehicle for the idempotence proof. -/
def capWordA (w : List Char) : List Char :=
  match w with
  | [] => []
  | c :: rest => Char.toUpper c :: rest

/-- The `cleanString` pipeline specialized to inputs on which every case
mapping is a single code point (in particular all ASCII inputs); it agrees
with `cleanStringCore` there. -/
def asciiCore (l : List Char) : List Char :=
  joinSp (List.map capWordA (splitSp (List.map Char.toLower (trimCh l))))

/-- `cleanString` (lines 25-32 of `src/main.js`).  `null`/`undefined` and the
empty string are falsy, so they yield `null`; any other string goes through
the title-casing pipeline. -/
def cleanString (str : Option String) : Option String :=
  match str with
  | none => none
  | some s => if s = "" then none else some (String.mk (cleanStringCore s.data))

/-- A JavaScript number: `NaN`, a signed infinity, or a finite value
(represented exactly as a rational). -/
inductive JsNum where
  | nan : JsNum
  | inf : Bool → JsNum
  | num : ℚ → JsNum
deriving DecidableEq, Repr

/-- Decimal digit test on characters. -/
def isDigitCh (c : Char) : Bool :=
  48 ≤ c.toNat && c.toNat ≤ 57

/-- Numeric value of a list of decimal digits (most significant first). -/
def digitsVal (ds : List Char) : ℕ :=
  ds.foldl (fun a c => 10 * a + (c.toNat - 48)) 0

/-- Exponent part of `parseFloat` after the `e`/`E` marker: an optional sign
followed by the longest run of digits; if no digit follows, the exponent
marker is not part of the parsed prefix and contributes exponent `0`. -/
def parseExpAfterMark (l : List Char) : Int :=
  match l with
  | '+' :: ds =>
    (if ds.takeWhile isDigitCh = [] then 0 else (digitsVal (ds.takeWhile isDigitCh) : Int))
  | '-' :: ds =>
    (if ds.takeWhile isDigitCh = [] then 0 else -(digitsVal (ds.takeWhile isDigitCh) : Int))
  | ds =>
    (if ds.takeWhile isDigitCh = [] then 0 else (digitsVal (ds.takeWhile isDigitCh) : Int))

/-- Exponent of the longest valid numeric prefix starting at `l`. -/
def parseExponent (l : List Char) : Int :=
  match l with
  | 'e' :: rest => parseExpAfterMark rest
  | 'E' :: rest => parseExpAfterMark rest
  | _ => 0

/-- Mantissa of `parseFloat`: longest prefix `digits [ "." digits ]` with at
least one digit overall; returns the integer part, the value and count of the
fractional digits, and the unconsumed remainder. -/
def parseMantissa (l : List Char) : Option (ℕ × ℕ × ℕ × List Char) :=
  match l.dropWhile isDigitCh with
  | '.' :: r2 =>
    if l.takeWhile isDigitCh = [] ∧ r2.takeWhile isDigitCh = [] then none
    else some (digitsVal (l.takeWhile isDigitCh), digitsVal (r2.takeWhile isDigitCh),
      (r2.takeWhile isDigitCh).length, r2.dropWhile isDigitCh)
  | r1 =>
    if l.takeWhile isDigitCh = [] then none
    else some (digitsVal (l.takeWhile isDigitCh), 0, 0, r1)

/-- The rational value `sign * (ip . frac) * 10 ^ e` of a parsed decimal,
assembled with `mkRat` over integer arithmetic. -/
def decValue (ip fv fl : ℕ) (e : Int) (neg : Bool) : ℚ :=
  let n : ℤ := ((ip * 10 ^ fl + fv : ℕ) : ℤ)
  let n : ℤ := if neg then -n else n
  if 0 ≤ e then mkRat (n * ((10 ^ e.toNat : ℕ) : ℤ)) (10 ^ fl)
  else mkRat n (10 ^ fl * 10 ^ (-e).toNat)

/-- Body of `parseFloat` after the optional sign: `Infinity`, or a decimal
mantissa with optional exponent; anything else is `NaN`. -/
def parseFloatBody (l : List Char) (neg : Bool) : JsNum :=
  if ['I', 'n', 'f', 'i', 'n', 'i', 't', 'y'].isPrefixOf l then JsNum.inf !neg
  else
    match parseMantissa l with
    | none => JsNum.nan
    | some (ip, fv, fl, rest) => JsNum.num (decValue ip fv fl (parseExponent rest) neg)

/-- Model of JavaScript `parseFloat`: skip leading whitespace, read an
optional sign, then the longest valid numeric prefix; `NaN` if none. -/
def parseFloatCh (l : List Char) : JsNum :=
  match l.dropWhile isWsC with
  | '-' :: r => parseFloatBody r true
  | '+' :: r => parseFloatBody r false
  | r => parseFloatBody r false

/-- `parseNumber` (lines 34-37 of `src/main.js`): falsy input (`null`,
`undefined`, `""`) yields `null`; otherwise strip every `%`, `,`, `$`, trim,
and apply `parseFloat`. -/
def parseNumber (value : Option String) : Option JsNum :=
  match value with
  | none => none
  | some s =>
    if s = "" then none
    else some (parseFloatCh (trimCh (s.data.filter (fun c => !(c = '%' || c = ',' || c = '$')))))

/-- A raw CSV row as handed to the cleaning pass by `d3.csv`: each of the
seven referenced columns is a string, or absent. -/
structure RawRow where
  indicator : Option String
  group : Option String
  subgroup : Option String
  timePeriod : Option String
  value : Option String
  ciLower : Option String
  ciUpper : Option String
deriving DecidableEq, Repr

/-- A cleaned record, with the field names used by the mapping at lines 3-10
of `src/main.js`. -/
structure CleanedRow where
  Indicator : Option String
  Group : Option String
  Subgroup : Option String
  TimePeriod : Option String
  Value : Option JsNum
  CI_Lower : Option JsNum
  CI_Upper : Option JsNum
deriving DecidableEq, Repr

/-- The per-row mapping of lines 3-10 of `src/main.js`. -/
def normalizeRow (r : RawRow) : CleanedRow :=
  { Indicator := cleanString r.indicator
    Group := cleanString r.group
    Subgroup := cleanString r.subgroup
    TimePeriod := cleanString r.timePeriod
    Value := parseNumber r.value
    CI_Lower := parseNumber r.ciLower
    CI_Upper := parseNumber r.ciUpper }

/-- JavaScript truthiness of a nullable string: `null`/`undefined` and `""`
are falsy, every other string is truthy. -/
def truthyStr (v : Option String) : Bool :=
  match v with
  | none => false
  | some s => !(s = "")

/-- JavaScript global `isFinite` applied to a nullable number.  It coerces
its argument with `Number(...)` first, so `null` becomes `0` and counts as
finite; `NaN` and the infinities do not. -/
def isFiniteJS (v : Option JsNum) : Bool :=
  match v with
  | none => true
  | some JsNum.nan => false
  | some (JsNum.inf _) => false
  | some (JsNum.num _) => true

/-- The retention predicate of the `filter` at lines 11-17 of `src/main.js`. -/
def keepRow (row : CleanedRow) : Bool :=
  truthyStr row.Indicator && truthyStr row.Group && truthyStr row.Subgroup &&
    truthyStr row.TimePeriod && isFiniteJS row.Value

/-- `cleanedData` (lines 3-17 of `src/main.js`): normalize every raw row,
then keep the rows satisfying the retention predicate. -/
def cleanedData (rawData : List RawRow) : List CleanedRow :=
  (rawData.map normalizeRow).filter keepRow

/-- JavaScript `String(...)` of a nullable string, as used by the default
comparator of `Array.prototype.sort`: `null` prints as `"null"`. -/
def optKey (v : Option String) : String :=
  match v with
  | none => "null"
  | some s => s

/-- The ordering used by the default `sort()` comparator on the option
lists: lexicographic comparison of the stringified elements. -/
def optLe (a b : Option String) : Prop :=
  optKey a ≤ optKey b

instance : DecidableRel optLe := fun a b =>
  inferInstanceAs (Decidable (optKey a ≤ optKey b))

instance : IsTotal (Option String) optLe :=
  ⟨fun a b => le_total (optKey a) (optKey b)⟩

instance : IsTrans (Option String) optLe :=
  ⟨fun _ _ _ h h' => le_trans h h'⟩

/-- Model of `new Set(...)` iteration order: first occurrence of each element,
in insertion order. -/
def dedupFirst : List (Option String) → List (Option String)
  | [] => []
  | a :: l => a :: ((dedupFirst l).filter (fun b => b != a))

/-- `Array.from(new Set(xs)).sort()` (lines 49-51 of `src/main.js`):
deduplicate keeping first occurrences, then sort with the default
string comparator. -/
def distinctSorted (l : List (Option String)) : List (Option String) :=
  List.insertionSort optLe (dedupFirst l)

/-- The `groupOptions` list of `populateFilters` (line 49 of `src/main.js`). -/
def groupOptions (data : List CleanedRow) : List (Option String) :=
  distinctSorted (data.map (fun d => d.Group))

/-- The `timeOptions` list of `populateFilters` (line 50 of `src/main.js`). -/
def timeOptions (data : List CleanedRow) : List (Option String) :=
  distinctSorted (data.map (fun d => d.TimePeriod))

/-- The `indicatorOptions` list of `populateFilters` (line 51). -/
def indicatorOptions (data : List CleanedRow) : List (Option String) :=
  distinctSorted (data.map (fun d => d.Indicator))

/-- `lineData` (lines 76-78 of `src/main.js`): strict-equality filter on
`Group` and `Indicator`. -/
def lineData (data : List CleanedRow) (selectedGroup selectedIndicator : Option String) :
    List CleanedRow :=
  data.filter (fun d => d.Group == selectedGroup && d.Indicator == selectedIndicator)

/-- `barData` (lines 80-82 of `src/main.js`): strict-equality filter on
`TimePeriod` and `Indicator`. -/
def barData (data : List CleanedRow) (selectedTime selectedIndicator : Option String) :
    List CleanedRow :=
  data.filter (fun d => d.TimePeriod == selectedTime && d.Indicator == selectedIndicator)

/-- Outcome of one `renderCharts` invocation: either the early return of
line 74 (no chart touched), or both charts drawn from their views. -/
inductive RenderResult where
  | skipped : RenderResult
  | drawn : List CleanedRow → List CleanedRow → RenderResult
deriving DecidableEq, Repr

/-- `renderCharts` (lines 69-86 of `src/main.js`), with the three values read
from the selects passed explicitly (absent/unset selection is `none`). -/
def renderCharts (data : List CleanedRow)
    (selectedGroup selectedTime selectedIndicator : Option String) : RenderResult :=
  if !truthyStr selectedGroup || !truthyStr selectedTime || !truthyStr selectedIndicator then
    RenderResult.skipped
  else
    RenderResult.drawn (lineData data selectedGroup selectedIndicator)
      (barData data selectedTime selectedIndicator)

/-- `x.toFixed(1)` on a JavaScript number: `NaN`/infinities print as
themselves; a finite value `q` is rounded to one decimal digit per the
ECMAScript algorithm (print `-` for negative `q`, then round `|q| * 10` to
the nearest integer, ties upward): the rounded value is
`floor((20 * |q.num| + q.den) / (2 * q.den))`, computed with `Int.fdiv`. -/
def toFixed1 (n : JsNum) : String :=
  match n with
  | JsNum.nan => "NaN"
  | JsNum.inf b => if b then "Infinity" else "-Infinity"
  | JsNum.num q =>
    (if q.num < 0 then "-" else "") ++
      toString ((Int.fdiv (20 * q.num.natAbs + q.den) (2 * q.den)).toNat / 10) ++ "." ++
      toString ((Int.fdiv (20 * q.num.natAbs + q.den) (2 * q.den)).toNat % 10)

/-- `v.toFixed(1)` on a nullable number: calling a method on `null` throws a
`TypeError`, modelled as `Except.error`. -/
def toFixed1OrThrow (v : Option JsNum) : Except String String :=
  match v with
  | none => Except.error "TypeError: Cannot read properties of null"
  | some n => Except.ok (toFixed1 n)

/-- The tooltip template of the hover handlers (line 164 and line 250 of
`src/main.js`): interpolates `d.Value.toFixed(1)`, `d.CI_Lower.toFixed(1)`
and `d.CI_Upper.toFixed(1)` left to right, with no null guard. -/
def pointTooltipContent (d : CleanedRow) : Except String String := do
  let v ← toFixed1OrThrow d.Value
  let lo ← toFixed1OrThrow d.CI_Lower
  let hi ← toFixed1OrThrow d.CI_Upper
  pure ("Value: " ++ v ++ "%<br>CI: [" ++ lo ++ " - " ++ hi ++ "]")

/-- First record of the end-to-end scenario of spec section 8. -/
def recAdultAug : CleanedRow :=
  { Indicator := some "Anxiety", Group := some "Adult", Subgroup := some "All Adults"
    TimePeriod := some "Aug 2020", Value := some (JsNum.num 10)
    CI_Lower := none, CI_Upper := none }

/-- Second record of the end-to-end scenario of spec section 8. -/
def recAdultSep : CleanedRow :=
  { Indicator := some "Anxiety", Group := some "Adult", Subgroup := some "All Adults"
    TimePeriod := some "Sep 2020", Value := some (JsNum.num 15)
    CI_Lower := none, CI_Upper := none }

/-- Third record of the end-to-end scenario of spec section 8. -/
def recYouthAug : CleanedRow :=
  { Indicator := some "Anxiety", Group := some "Youth", Subgroup := some "All Youth"
    TimePeriod := some "Aug 2020", Value := some (JsNum.num 5)
    CI_Lower := none, CI_Upper := none }

/-- The three-record dataset of the end-to-end scenario of spec section 8. -/
def scenarioData : List CleanedRow :=
  [recAdultAug, recAdultSep, recYouthAug]

/-- A raw row whose string fields are all valid but whose `Value` cell is
empty (and CI cells empty as well). -/
def rawEmptyValueRow : RawRow :=
  { indicator := some "anxiety", group := some "adult", subgroup := some "all adults"
    timePeriod := some "aug 2020", value := some "", ciLower := some "", ciUpper := some "" }

/-- A retained record whose confidence-interval bounds are absent. -/
def ciMissingRow : CleanedRow :=
  { Indicator := some "Anxiety", Group := some "Adult", Subgroup := some "All Adults"
    TimePeriod := some "Aug 2020", Value := some (JsNum.num (mkRat 51 5))
    CI_Lower := none, CI_Upper := none }

/-- A raw row with a valid `Value` whose trailing characters are not numeric. -/
def rawTrailingGarbageRow : RawRow :=
  { indicator := some "anxiety", group := some "adult", subgroup := some "all adults"
    timePeriod := some "aug 2020", value := some "12abc", ciLower := none, ciUpper := none }

/-- Claim C1 (code bug).  The retention filter uses the global `isFinite`,
which coerces `null` to `0`: a raw row whose `Value` cell is empty — so that
`parseNumber` returns `null` — passes `isFinite(row.Value)` and is retained
with a null `Value`, although all its string fields are valid.  The claim
(and the spec's section 3 invariant) says such a row is excluded and every
retained record has a finite numeric value. -/
theorem c1_empty_value_row_is_retained :
    cleanedData [rawEmptyValueRow] =
      [{ Indicator := some "Anxiety", Group := some "Adult", Subgroup := some "All Adults",
         TimePeriod := some "Aug 2020", Value := none, CI_Lower := none, CI_Upper := none }] := by
  decide

/-- Claim C2 (code bug).  `ciMissingRow` satisfies the retention predicate,
yet building its hover-tooltip content throws: the template calls
`d.CI_Lower.toFixed(1)` with no null guard, and `CI_Lower` is `null`. -/
theorem c2_tooltip_throws_on_absent_ci :
    keepRow ciMissingRow = true ∧
      pointTooltipContent ciMissingRow =
        Except.error "TypeError: Cannot read properties of null" :=
  ⟨by decide, rfl⟩

/-- Claim C3, counterexample.  On `"  mOOD   disorder "` the code returns
`"Mood   Disorder"` — the interior run of three spaces is preserved, because
`split(" ")` cuts at every single space and `join(" ")` puts them all back —
not `"Mood Disorder"` as the claim states. -/
theorem c3_interior_spaces_preserved :
    ¬ cleanString (some "  mOOD   disorder ") = some "Mood Disorder" := by
  decide

/-- Claim C3 as amended.  `cleanString` maps `null` and `""` to `null`, and
`cleanString("  mOOD   disorder ")` is exactly `"Mood   Disorder"`: trim,
lowercase, split at each single space (consecutive spaces yield empty
tokens), capitalize the first character of each token, and rejoin with
single spaces, so interior runs of spaces are preserved. -/
theorem c3_cleanString_examples :
    cleanString none = none ∧ cleanString (some "") = none ∧
      cleanString (some "  mOOD   disorder ") = some "Mood   Disorder" := by
  decide

/-- Claim C5.  `parseNumber` strips `%`, `,`, `$` and surrounding whitespace
then parses a float: `"12.5%"` gives `12.5`, `"$1,200"` gives `1200`, and
`null` and `""` give `null`. -/
theorem c5_parseNumber_examples :
    parseNumber (some "12.5%") = some (JsNum.num (mkRat 25 2)) ∧
      parseNumber (some "$1,200") = some (JsNum.num 1200) ∧
      parseNumber none = none ∧
      parseNumber (some "") = none := by
  decide

/-- Claim C9.  `parseFloat` consumes the longest numeric prefix, so
`parseNumber("12abc")` is the finite number `12` (not `null` or `NaN`), and a
row with that `Value` still passes the retention filter. -/
theorem c9_parseNumber_numeric_prefix :
    parseNumber (some "12abc") = some (JsNum.num 12) ∧
      isFiniteJS (parseNumber (some "12abc")) = true ∧
      keepRow (normalizeRow rawTrailingGarbageRow) = true := by
  decide

/-- Claim C4.  For every dataset and selection, `lineData` is exactly the
records whose `Group` and `Indicator` equal the selected values, and
`barData` exactly those whose `TimePeriod` and `Indicator` equal the selected
values, each kept in source order (a sublist of the dataset); and on the
three-record dataset of spec section 8 with group "Adult" and indicator
"Anxiety", the line view is the first two records in order, excluding the
third. -/
theorem c4_views_filter_characterization :
    (∀ (data : List CleanedRow) (g i : String),
      List.Sublist (lineData data (some g) (some i)) data ∧
        ∀ d : CleanedRow, d ∈ lineData data (some g) (some i) ↔
          d ∈ data ∧ d.Group = some g ∧ d.Indicator = some i) ∧
    (∀ (data : List CleanedRow) (t i : String),
      List.Sublist (barData data (some t) (some i)) data ∧
        ∀ d : CleanedRow, d ∈ barData data (some t) (some i) ↔
          d ∈ data ∧ d.TimePeriod = some t ∧ d.Indicator = some i) ∧
    lineData scenarioData (some "Adult") (some "Anxiety") = [recAdultAug, recAdultSep] := by
  refine ⟨fun data g i => ⟨List.filter_sublist _, fun d => ?_⟩,
    fun data t i => ⟨List.filter_sublist _, fun d => ?_⟩, by decide⟩
  · simp [lineData, List.mem_filter, and_assoc]
  · simp [barData, List.mem_filter, and_assoc]

/-- Claim C7.  The loaded dataset is a stable filter of the normalized rows:
a sublist (hence original order, never reordered), containing exactly the
normalized rows that satisfy the retention predicate. -/
theorem c7_cleanedData_order_preserving :
    ∀ rawData : List RawRow,
      List.Sublist (cleanedData rawData) (rawData.map normalizeRow) ∧
        ∀ r : CleanedRow,
          r ∈ cleanedData rawData ↔ r ∈ rawData.map normalizeRow ∧ keepRow r = true :=
  fun _ => ⟨List.filter_sublist _, fun _ => List.mem_filter⟩

/-- The first-occurrence deduplication never produces a duplicate. -/
theorem dedupFirst_nodup (l : List (Option String)) : (dedupFirst l).Nodup := by
  induction l with
  | nil => simp [dedupFirst]
  | cons a l ih =>
    simp only [dedupFirst, List.nodup_cons]
    refine ⟨fun h => ?_, ih.filter _⟩
    have h2 := (List.mem_filter.mp h).2
    simp at h2

/-- The first-occurrence deduplication keeps exactly the elements of the
input. -/
theorem mem_dedupFirst (l : List (Option String)) (v : Option String) :
    v ∈ dedupFirst l ↔ v ∈ l := by
  induction l with
  | nil => simp [dedupFirst]
  | cons a l ih =>
    simp only [dedupFirst, List.mem_cons, List.mem_filter, ih, bne_iff_ne]
    by_cases h : v = a <;> simp [h]

/-- `distinctSorted` returns a duplicate-free, sorted list with the same
membership as its input. -/
theorem distinctSorted_spec (l : List (Option String)) :
    (distinctSorted l).Nodup ∧ (∀ v, v ∈ distinctSorted l ↔ v ∈ l) ∧
      List.Sorted optLe (distinctSorted l) := by
  have hperm := List.perm_insertionSort optLe (dedupFirst l)
  exact ⟨hperm.nodup_iff.mpr (dedupFirst_nodup l),
    fun v => (hperm.mem_iff).trans (mem_dedupFirst l v),
    List.sorted_insertionSort optLe (dedupFirst l)⟩

/-- Claim C6.  For every dataset, each of the three option lists contains
each distinct value of its field exactly once (no duplicates, membership
matching the field's values across all records), in ascending lexicographic
order of the stringified values (`optLe`). -/
theorem c6_options_distinct_sorted :
    ∀ data : List CleanedRow,
      ((groupOptions data).Nodup ∧
        (∀ v, v ∈ groupOptions data ↔ v ∈ data.map (fun d => d.Group)) ∧
        List.Sorted optLe (groupOptions data)) ∧
      ((timeOptions data).Nodup ∧
        (∀ v, v ∈ timeOptions data ↔ v ∈ data.map (fun d => d.TimePeriod)) ∧
        List.Sorted optLe (timeOptions data)) ∧
      ((indicatorOptions data).Nodup ∧
        (∀ v, v ∈ indicatorOptions data ↔ v ∈ data.map (fun d => d.Indicator)) ∧
        List.Sorted optLe (indicatorOptions data)) :=
  fun _ => ⟨distinctSorted_spec _, distinctSorted_spec _, distinctSorted_spec _⟩

/-- Claim C8.  If any of the three selections is absent or unset (falsy),
`renderCharts` returns at line 74 without touching either chart. -/
theorem c8_render_skipped_without_selection :
    ∀ (data : List CleanedRow) (g t i : Option String),
      truthyStr g = false ∨ truthyStr t = false ∨ truthyStr i = false →
        renderCharts data g t i = RenderResult.skipped := by
  intro data g t i h
  unfold renderCharts
  rcases h with h | h | h <;> simp [h]

/-- Witness for claim C8 at a concrete input: the group selection unset. -/
theorem c8_witness :
    renderCharts [] none (some "Aug 2020") (some "Anxiety") = RenderResult.skipped :=
  c8_render_skipped_without_selection [] none (some "Aug 2020") (some "Anxiety") (Or.inl rfl)

/-- Packing a valid code point and unpacking it is the identity. -/
theorem char_toNat_ofNat_of_lt (n : ℕ) (h : n < 55296) : (Char.ofNat n).toNat = n := by
  have hv : n.isValidChar := Or.inl h
  rw [Char.ofNat, dif_pos hv]
  rfl

/-- Characters with equal code points are equal. -/
theorem char_eq_of_toNat_eq {c d : Char} (h : c.toNat = d.toNat) : c = d :=
  Char.ext (UInt32.toNat.inj h)

/-- Code point of `Char.toLower`: shift `A`-`Z` by 32, fix everything else. -/
theorem toNat_toLower (c : Char) :
    (Char.toLower c).toNat = if 65 ≤ c.toNat ∧ c.toNat ≤ 90 then c.toNat + 32 else c.toNat := by
  simp only [Char.toLower, ge_iff_le]
  split_ifs with h
  · exact char_toNat_ofNat_of_lt (c.toNat + 32) (by omega)
  · rfl

/-- Code point of `Char.toUpper`: shift `a`-`z` by 32, fix everything else. -/
theorem toNat_toUpper (c : Char) :
    (Char.toUpper c).toNat = if 97 ≤ c.toNat ∧ c.toNat ≤ 122 then c.toNat - 32 else c.toNat := by
  simp only [Char.toUpper, ge_iff_le]
  split_ifs with h
  · exact char_toNat_ofNat_of_lt (c.toNat - 32) (by omega)
  · rfl

/-- Lowercasing is idempotent on characters. -/
theorem toLower_toLower (c : Char) : Char.toLower (Char.toLower c) = Char.toLower c := by
  apply char_eq_of_toNat_eq
  rw [toNat_toLower, toNat_toLower]
  split_ifs <;> omega

/-- On a character fixed by `toLower`, uppercasing then lowercasing is the
identity. -/
theorem toLower_toUpper_of_fixed {c : Char} (h : Char.toLower c = c) :
    Char.toLower (Char.toUpper c) = c := by
  apply char_eq_of_toNat_eq
  have hfix : (Char.toLower c).toNat = c.toNat := congrArg Char.toNat h
  rw [toNat_toLower] at hfix
  rw [toNat_toLower, toNat_toUpper]
  split_ifs at hfix ⊢ <;> omega

/-- The whitespace test as a decidable proposition on code points. -/
theorem isWsC_iff (c : Char) :
    isWsC c = true ↔ (c.toNat = 32 ∨ c.toNat = 9 ∨ c.toNat = 10 ∨ c.toNat = 11 ∨
      c.toNat = 12 ∨ c.toNat = 13 ∨ c.toNat = 160 ∨ c.toNat = 5760 ∨
      (8192 ≤ c.toNat ∧ c.toNat ≤ 8202) ∨ c.toNat = 8232 ∨ c.toNat = 8233 ∨
      c.toNat = 8239 ∨ c.toNat = 8287 ∨ c.toNat = 12288 ∨ c.toNat = 65279) := by
  simp [isWsC, or_assoc]

/-- Lowercasing does not change whether a character is whitespace. -/
theorem isWsC_toLower (c : Char) : isWsC (Char.toLower c) = isWsC c := by
  rw [Bool.eq_iff_iff, isWsC_iff, isWsC_iff, toNat_toLower]
  split_ifs <;> omega

/-- Uppercasing does not change whether a character is whitespace. -/
theorem isWsC_toUpper (c : Char) : isWsC (Char.toUpper c) = isWsC c := by
  rw [Bool.eq_iff_iff, isWsC_iff, isWsC_iff, toNat_toUpper]
  split_ifs <;> omega

/-- A non-whitespace character is not the space character. -/
theorem ne_space_of_not_ws {c : Char} (h : isWsC c = false) : c ≠ ' ' := by
  intro he
  rw [he] at h
  exact absurd h (by decide)

/-- The head of `dropWhile p` never satisfies `p`. -/
theorem head?_dropWhile_not (p : Char → Bool) (l : List Char) {a : Char}
    (h : (l.dropWhile p).head? = some a) : p a = false := by
  induction l with
  | nil => simp [List.dropWhile] at h
  | cons c t ih =>
    rw [List.dropWhile_cons] at h
    by_cases hc : p c
    · rw [if_pos hc] at h
      exact ih h
    · rw [if_neg hc] at h
      rw [List.head?_cons, Option.some.injEq] at h
      subst h
      exact Bool.eq_false_iff.mpr hc

/-- Splitting never produces the empty token list. -/
theorem splitSp_ne_nil (l : List Char) : splitSp l ≠ [] := by
  cases l with
  | nil => simp [splitSp]
  | cons c rest =>
    simp only [splitSp]
    cases h : splitSp rest with
    | nil => simp
    | cons w ws => split_ifs <;> simp

/-- Prepending a non-empty word keeps the head of the joined list. -/
theorem head?_joinSp {w : List Char} (ws : List (List Char)) (hw : w ≠ []) :
    (joinSp (w :: ws)).head? = w.head? := by
  cases ws with
  | nil => rfl
  | cons x xs =>
    simp only [joinSp]
    cases w with
    | nil => exact absurd rfl hw
    | cons a t => rfl

/-- Splitting a list that starts with a non-space character yields a first
token carrying that character. -/
theorem splitSp_head_cons {c : Char} (rest : List Char) (hc : c ≠ ' ') :
    ∃ w ws, splitSp (c :: rest) = (c :: w) :: ws := by
  cases h : splitSp rest with
  | nil => exact absurd h (splitSp_ne_nil rest)
  | cons w ws =>
    refine ⟨w, ws, ?_⟩
    simp only [splitSp, h, if_neg hc]

/-- Joining a token list whose first token gained a head character. -/
theorem joinSp_cons_cons (c : Char) (w : List Char) (ws : List (List Char)) :
    joinSp ((c :: w) :: ws) = c :: joinSp (w :: ws) := by
  cases ws with
  | nil => rfl
  | cons x xs => rfl

/-- Joining with single spaces undoes splitting at single spaces. -/
theorem joinSp_splitSp (l : List Char) : joinSp (splitSp l) = l := by
  induction l with
  | nil => rfl
  | cons c rest ih =>
    cases h : splitSp rest with
    | nil => exact absurd h (splitSp_ne_nil rest)
    | cons w ws =>
      rw [h] at ih
      by_cases hc : c = ' '
      · subst hc
        simp only [splitSp, h, if_pos rfl]
        cases ws with
        | nil => simp [joinSp] at ih ⊢; exact ih
        | cons x xs => simp only [joinSp, List.nil_append] at ih ⊢; rw [ih]
      · simp only [splitSp, h, if_neg hc]
        rw [joinSp_cons_cons, ih]

/-- Every character of every token produced by splitting comes from the
input list. -/
theorem mem_of_mem_splitSp : ∀ {l w : List Char} {c : Char},
    w ∈ splitSp l → c ∈ w → c ∈ l := by
  intro l
  induction l with
  | nil =>
    intro w c hw hc
    simp [splitSp] at hw
    subst hw
    simp at hc
  | cons a rest ih =>
    intro w c hw hc
    cases h : splitSp rest with
    | nil => exact absurd h (splitSp_ne_nil rest)
    | cons w0 ws =>
      simp only [splitSp, h] at hw
      by_cases ha : a = ' '
      · rw [if_pos ha] at hw
        rcases List.mem_cons.mp hw with hw1 | hw1
        · subst hw1; simp at hc
        · exact List.mem_cons_of_mem a (ih (h ▸ hw1) hc)
      · rw [if_neg ha] at hw
        rcases List.mem_cons.mp hw with hw1 | hw1
        · subst hw1
          rcases List.mem_cons.mp hc with hc1 | hc1
          · subst hc1; exact List.mem_cons_self c rest
          · exact List.mem_cons_of_mem a (ih (h ▸ List.mem_cons_self w0 ws) hc1)
        · exact List.mem_cons_of_mem a (ih (h ▸ List.mem_cons_of_mem w0 hw1) hc)

/-- Mapping a function fixing every element of a word is the identity. -/
theorem map_toLower_eq_self {w : List Char} (h : ∀ c ∈ w, Char.toLower c = c) :
    List.map Char.toLower w = w := by
  induction w with
  | nil => rfl
  | cons a t ih =>
    simp only [List.map_cons, h a (List.mem_cons_self a t)]
    rw [ih (fun c hc => h c (List.mem_cons_of_mem a hc))]

/-- Lowercasing undoes capitalization on an all-lowercase-fixed word. -/
theorem map_toLower_capWordA {w : List Char} (h : ∀ c ∈ w, Char.toLower c = c) :
    List.map Char.toLower (capWordA w) = w := by
  cases w with
  | nil => rfl
  | cons a t =>
    simp only [capWordA, List.map_cons]
    rw [toLower_toUpper_of_fixed (h a (List.mem_cons_self a t)),
      map_toLower_eq_self (fun c hc => h c (List.mem_cons_of_mem a hc))]

/-- A space-fixing map commutes with joining. -/
theorem map_joinSp (f : Char → Char) (hf : f ' ' = ' ') (ws : List (List Char)) :
    List.map f (joinSp ws) = joinSp (List.map (List.map f) ws) := by
  induction ws with
  | nil => rfl
  | cons w ws ih =>
    cases ws with
    | nil => rfl
    | cons x xs =>
      simp only [joinSp, List.map_append, List.map_cons, hf] at ih ⊢
      rw [ih]

/-- Lowercasing the output of the title-casing pipeline recovers the
lowercased trimmed input. -/
theorem map_toLower_asciiCore (l : List Char) :
    List.map Char.toLower (asciiCore l) = List.map Char.toLower (trimCh l) := by
  have hts : ∀ w ∈ splitSp (List.map Char.toLower (trimCh l)),
      List.map Char.toLower (capWordA w) = w := by
    intro w hw
    apply map_toLower_capWordA
    intro c hc
    rcases List.mem_map.mp (mem_of_mem_splitSp hw hc) with ⟨c0, _, rfl⟩
    exact toLower_toLower c0
  calc List.map Char.toLower (asciiCore l)
      = joinSp (List.map (List.map Char.toLower)
          (List.map capWordA (splitSp (List.map Char.toLower (trimCh l))))) :=
        map_joinSp Char.toLower (by decide) _
    _ = joinSp (List.map (fun w => List.map Char.toLower (capWordA w))
          (splitSp (List.map Char.toLower (trimCh l)))) := by rw [List.map_map]; rfl
    _ = joinSp (List.map (fun w => w) (splitSp (List.map Char.toLower (trimCh l)))) := by
        rw [List.map_congr_left hts]
    _ = joinSp (splitSp (List.map Char.toLower (trimCh l))) := by rw [List.map_id']
    _ = List.map Char.toLower (trimCh l) := joinSp_splitSp _

/-- The head of a trimmed list is not whitespace. -/
theorem trimCh_head_not_ws {l : List Char} {c : Char} (h : (trimCh l).head? = some c) :
    isWsC c = false := by
  rcases List.rdropWhile_prefix isWsC (l := l.dropWhile isWsC) with ⟨t, ht⟩
  have h' : (List.rdropWhile isWsC (List.dropWhile isWsC l)).head? = some c := h
  apply head?_dropWhile_not isWsC l
  rw [← ht, List.head?_append, h']
  rfl

/-- The last element of a trimmed list is not whitespace. -/
theorem trimCh_getLast_not_ws {l : List Char} {c : Char} (h : (trimCh l).getLast? = some c) :
    isWsC c = false := by
  have hrev : (trimCh l).reverse = ((l.dropWhile isWsC).reverse).dropWhile isWsC := by
    simp [trimCh, List.rdropWhile]
  apply head?_dropWhile_not isWsC ((l.dropWhile isWsC).reverse)
  rw [← hrev, List.head?_reverse]
  exact h

/-- A list whose two ends are non-whitespace is fixed by trimming. -/
theorem trimCh_eq_self {l : List Char}
    (h1 : ∀ c, l.head? = some c → isWsC c = false)
    (h2 : ∀ c, l.getLast? = some c → isWsC c = false) : trimCh l = l := by
  have hd : l.dropWhile isWsC = l := by
    cases l with
    | nil => rfl
    | cons a t =>
      rw [List.dropWhile_cons, if_neg (by rw [h1 a rfl]; exact Bool.false_ne_true)]
  rw [trimCh, hd, List.rdropWhile_eq_self_iff]
  intro hl
  rw [h2 (l.getLast hl) (List.getLast?_eq_getLast l hl)]
  exact Bool.false_ne_true

/-- An empty trimmed input gives an empty pipeline output. -/
theorem asciiCore_of_trim_nil {l : List Char} (h : trimCh l = []) :
    asciiCore l = [] := by
  unfold asciiCore
  rw [h]
  rfl

/-- The head of the pipeline output is the capitalized lowercased head of
the trimmed input. -/
theorem asciiCore_head {l : List Char} {c0 : Char} {rest : List Char}
    (h : trimCh l = c0 :: rest) :
    (asciiCore l).head? = some (Char.toUpper (Char.toLower c0)) := by
  have hws : isWsC c0 = false := trimCh_head_not_ws (by rw [h]; rfl)
  have hns : Char.toLower c0 ≠ ' ' :=
    ne_space_of_not_ws (by rw [isWsC_toLower]; exact hws)
  unfold asciiCore
  rw [h, List.map_cons]
  rcases splitSp_head_cons (List.map Char.toLower rest) hns with ⟨w, ws, hsplit⟩
  rw [hsplit, List.map_cons]
  rw [head?_joinSp _ (by simp [capWordA])]
  rfl

/-- A non-empty trimmed input gives a non-empty pipeline output. -/
theorem asciiCore_ne_nil {l : List Char} (h : trimCh l ≠ []) :
    asciiCore l ≠ [] := by
  cases htr : trimCh l with
  | nil => exact absurd htr h
  | cons c0 rest =>
    intro hnil
    have hh := asciiCore_head htr
    rw [hnil] at hh
    exact Option.noConfusion hh

/-- The head of the pipeline output is never whitespace. -/
theorem asciiCore_head_not_ws {l : List Char} {c : Char}
    (h : (asciiCore l).head? = some c) : isWsC c = false := by
  cases htr : trimCh l with
  | nil =>
    rw [asciiCore_of_trim_nil htr] at h
    exact Option.noConfusion h
  | cons c0 rest =>
    rw [asciiCore_head htr, Option.some.injEq] at h
    subst h
    have h0 : isWsC c0 = false := trimCh_head_not_ws (by rw [htr]; rfl)
    rw [isWsC_toUpper, isWsC_toLower]
    exact h0

/-- Dropping the head of a cons whose tail is non-empty keeps the last
element. -/
theorem getLast?_cons_of_ne_nil {α : Type _} {a : α} {t : List α} (h : t ≠ []) :
    (a :: t).getLast? = t.getLast? := by
  cases t with
  | nil => exact absurd rfl h
  | cons x xs => exact List.getLast?_cons_cons

/-- Joining keeps the last element of a non-empty last token. -/
theorem getLast?_joinSp : ∀ (ws : List (List Char)) (w : List Char),
    ws.getLast? = some w → w ≠ [] → (joinSp ws).getLast? = w.getLast? := by
  intro ws
  induction ws with
  | nil => intro w h; exact absurd h (by simp)
  | cons x xs ih =>
    intro w h hw
    cases xs with
    | nil =>
      simp only [List.getLast?_singleton, Option.some.injEq] at h
      subst h
      rfl
    | cons y ys =>
      rw [getLast?_cons_of_ne_nil (by simp)] at h
      have hj := ih w h hw
      have hne : joinSp (y :: ys) ≠ [] := by
        intro hnil
        have hsome := List.getLast?_isSome.mpr hw
        rw [← hj, hnil] at hsome
        simp at hsome
      simp only [joinSp]
      rw [List.getLast?_append, getLast?_cons_of_ne_nil hne, hj]
      cases hwl : w.getLast? with
      | none =>
        have hsome := List.getLast?_isSome.mpr hw
        rw [hwl] at hsome
        simp at hsome
      | some d => rfl

/-- If the input ends with a non-space character, the last token of the
split is non-empty and ends with that character. -/
theorem splitSp_getLast : ∀ {t : List Char} {c : Char},
    t.getLast? = some c → c ≠ ' ' →
      ∃ w, (splitSp t).getLast? = some w ∧ w ≠ [] ∧ w.getLast? = some c := by
  intro t
  induction t with
  | nil => intro c h; exact absurd h (by simp)
  | cons a rest ih =>
    intro c h hc
    by_cases hrest : rest = []
    · subst hrest
      simp only [List.getLast?_singleton, Option.some.injEq] at h
      subst h
      refine ⟨[a], ?_, by simp, by simp⟩
      simp [splitSp, hc]
    · rw [getLast?_cons_of_ne_nil hrest] at h
      rcases ih h hc with ⟨w, hw1, hw2, hw3⟩
      cases hsp : splitSp rest with
      | nil => exact absurd hsp (splitSp_ne_nil rest)
      | cons w0 ws =>
        rw [hsp] at hw1
        by_cases ha : a = ' '
        · refine ⟨w, ?_, hw2, hw3⟩
          simp only [splitSp, hsp, if_pos ha]
          rw [getLast?_cons_of_ne_nil (by simp)]
          exact hw1
        · cases ws with
          | nil =>
            simp only [List.getLast?_singleton, Option.some.injEq] at hw1
            subst hw1
            refine ⟨a :: w0, ?_, by simp, ?_⟩
            · simp only [splitSp, hsp, if_neg ha]
              simp
            · rw [getLast?_cons_of_ne_nil hw2]
              exact hw3
          | cons z zs =>
            refine ⟨w, ?_, hw2, hw3⟩
            simp only [splitSp, hsp, if_neg ha]
            rw [getLast?_cons_of_ne_nil (by simp)]
            rw [getLast?_cons_of_ne_nil (by simp)] at hw1
            exact hw1

/-- Capitalizing a word leaves its last character alone, or uppercases it
when the word is a single character. -/
theorem capWordA_getLast {w : List Char} {c : Char} (hw : w ≠ []) (h : w.getLast? = some c) :
    (capWordA w).getLast? = some c ∨ (capWordA w).getLast? = some (Char.toUpper c) := by
  cases w with
  | nil => exact absurd rfl hw
  | cons a t =>
    cases t with
    | nil =>
      simp only [List.getLast?_singleton, Option.some.injEq] at h
      subst h
      right
      rfl
    | cons b bs =>
      left
      simp only [capWordA]
      rw [List.getLast?_cons_cons]
      rw [List.getLast?_cons_cons] at h
      exact h

/-- The last character of the pipeline output is never whitespace. -/
theorem asciiCore_getLast_not_ws {l : List Char} {c : Char}
    (h : (asciiCore l).getLast? = some c) : isWsC c = false := by
  cases htr : trimCh l with
  | nil =>
    rw [asciiCore_of_trim_nil htr] at h
    exact Option.noConfusion h
  | cons c0 rest =>
    have htne : trimCh l ≠ [] := by rw [htr]; simp
    have hsome := List.getLast?_isSome.mpr htne
    cases hgl : (trimCh l).getLast? with
    | none => rw [hgl] at hsome; simp at hsome
    | some ce =>
      have hwsce : isWsC ce = false := trimCh_getLast_not_ws hgl
      have ht : (List.map Char.toLower (trimCh l)).getLast? = some (Char.toLower ce) := by
        rw [List.getLast?_map, hgl]
        rfl
      have hnsp : Char.toLower ce ≠ ' ' :=
        ne_space_of_not_ws (by rw [isWsC_toLower]; exact hwsce)
      rcases splitSp_getLast ht hnsp with ⟨w, hw1, hw2, hw3⟩
      have hmw : (List.map capWordA (splitSp (List.map Char.toLower (trimCh l)))).getLast?
          = some (capWordA w) := by
        rw [List.getLast?_map, hw1]
        rfl
      have hcne : capWordA w ≠ [] := by
        cases w with
        | nil => exact absurd rfl hw2
        | cons x xs => simp [capWordA]
      have hj := getLast?_joinSp _ (capWordA w) hmw hcne
      unfold asciiCore at h
      rw [hj] at h
      rcases capWordA_getLast hw2 hw3 with hcl | hcl
      · rw [hcl, Option.some.injEq] at h
        subst h
        rw [isWsC_toLower]
        exact hwsce
      · rw [hcl, Option.some.injEq] at h
        subst h
        rw [isWsC_toUpper, isWsC_toLower]
        exact hwsce

/-- The title-casing pipeline is idempotent on character lists. -/
theorem asciiCore_idem (l : List Char) :
    asciiCore (asciiCore l) = asciiCore l := by
  have htrim : trimCh (asciiCore l) = asciiCore l :=
    trimCh_eq_self (fun _ hc => asciiCore_head_not_ws hc)
      (fun _ hc => asciiCore_getLast_not_ws hc)
  calc asciiCore (asciiCore l)
      = joinSp (List.map capWordA
          (splitSp (List.map Char.toLower (trimCh (asciiCore l))))) := rfl
    _ = joinSp (List.map capWordA
          (splitSp (List.map Char.toLower (asciiCore l)))) := by rw [htrim]
    _ = joinSp (List.map capWordA
          (splitSp (List.map Char.toLower (trimCh l)))) := by rw [map_toLower_asciiCore]
    _ = asciiCore l := rfl

/-- Every character of a trimmed list is a character of the original. -/
theorem mem_trimCh {l : List Char} {c : Char} (h : c ∈ trimCh l) : c ∈ l :=
  (List.dropWhile_suffix isWsC).sublist.subset
    ((List.rdropWhile_prefix isWsC (l := l.dropWhile isWsC)).sublist.subset h)

/-- ASCII characters stay ASCII under lowercasing. -/
theorem toLower_lt_128 {c : Char} (h : c.toNat < 128) : (Char.toLower c).toNat < 128 := by
  rw [toNat_toLower]
  split_ifs <;> omega

/-- ASCII characters stay ASCII under uppercasing. -/
theorem toUpper_lt_128 {c : Char} (h : c.toNat < 128) : (Char.toUpper c).toNat < 128 := by
  rw [toNat_toUpper]
  split_ifs <;> omega

/-- Every character of a joined token list is a space or a token character. -/
theorem mem_joinSp {c : Char} : ∀ {ws : List (List Char)},
    c ∈ joinSp ws → c = ' ' ∨ ∃ w, w ∈ ws ∧ c ∈ w := by
  intro ws
  induction ws with
  | nil => intro h; simp [joinSp] at h
  | cons w ws ih =>
    intro h
    cases ws with
    | nil => exact Or.inr ⟨w, by simp, h⟩
    | cons x xs =>
      simp only [joinSp] at h
      rcases List.mem_append.mp h with h1 | h1
      · exact Or.inr ⟨w, by simp, h1⟩
      · rcases List.mem_cons.mp h1 with h2 | h2
        · exact Or.inl h2
        · rcases ih h2 with h3 | ⟨w', hw', hc⟩
          · exact Or.inl h3
          · exact Or.inr ⟨w', by simp [hw'], hc⟩

/-- Every character of a capitalized word is a character of the word or the
uppercase of one. -/
theorem mem_capWordA {w : List Char} {c : Char} (h : c ∈ capWordA w) :
    (∃ a, a ∈ w ∧ c = Char.toUpper a) ∨ c ∈ w := by
  cases w with
  | nil => simp [capWordA] at h
  | cons a rest =>
    rcases List.mem_cons.mp h with h1 | h1
    · exact Or.inl ⟨a, List.mem_cons_self a rest, h1⟩
    · exact Or.inr (List.mem_cons_of_mem a h1)

/-- On ASCII input every character of the specialized pipeline output is
ASCII. -/
theorem asciiCore_ascii {l : List Char} (h : ∀ c ∈ l, c.toNat < 128) :
    ∀ c ∈ asciiCore l, c.toNat < 128 := by
  intro c hc
  rcases mem_joinSp hc with rfl | ⟨w, hw, hcw⟩
  · decide
  · rcases List.mem_map.mp hw with ⟨w0, hw0, rfl⟩
    rcases mem_capWordA hcw with ⟨a, ha, rfl⟩ | hcw2
    · rcases List.mem_map.mp (mem_of_mem_splitSp hw0 ha) with ⟨a0, ha0, rfl⟩
      exact toUpper_lt_128 (toLower_lt_128 (h a0 (mem_trimCh ha0)))
    · rcases List.mem_map.mp (mem_of_mem_splitSp hw0 hcw2) with ⟨a0, ha0, rfl⟩
      exact toLower_lt_128 (h a0 (mem_trimCh ha0))

/-- The full lowercase mapping never expands: it is pointwise
`Char.toLower`. -/
theorem lowerMap_eq_toLower (c : Char) : lowerMap c = [Char.toLower c] := by
  simp only [lowerMap, Char.toLower, ge_iff_le]
  split_ifs <;> rfl

/-- String lowercasing coincides with mapping `Char.toLower`. -/
theorem jsToLower_eq_map (l : List Char) : jsToLower l = List.map Char.toLower l := by
  induction l with
  | nil => rfl
  | cons a t ih =>
    simp only [jsToLower, List.map_cons, List.flatten_cons] at ih ⊢
    rw [lowerMap_eq_toLower, ih]
    rfl

/-- On ASCII characters the full uppercase mapping is pointwise
`Char.toUpper` (in particular it does not expand). -/
theorem upperMap_eq_toUpper {c : Char} (h : c.toNat < 128) :
    upperMap c = [Char.toUpper c] := by
  simp only [upperMap, Char.toUpper, ge_iff_le]
  split_ifs <;> first | rfl | omega

/-- On ASCII input the `cleanString` pipeline coincides with its
single-code-point specialization. -/
theorem cleanStringCore_eq_asciiCore {l : List Char} (h : ∀ c ∈ l, c.toNat < 128) :
    cleanStringCore l = asciiCore l := by
  unfold cleanStringCore asciiCore
  rw [jsToLower_eq_map]
  congr 1
  apply List.map_congr_left
  intro w hw
  cases w with
  | nil => rfl
  | cons a rest =>
    rcases List.mem_map.mp
        (mem_of_mem_splitSp hw (List.mem_cons_self a rest)) with ⟨a0, ha0, rfl⟩
    simp only [capWord, capWordA]
    rw [upperMap_eq_toUpper (toLower_lt_128 (h a0 (mem_trimCh ha0)))]
    rfl

/-- Claim C10, counterexample.  JavaScript case conversion uses the Unicode
full case mappings: `"ß".charAt(0).toUpperCase()` is `"SS"`, so
`cleanString("ß")` is `"SS"`, while re-normalizing gives
`cleanString("SS") = "Ss"`.  The trimmed form of `"ß"` is non-empty, yet
`cleanString` is not idempotent there, refuting the claim as stated. -/
theorem c10_counterexample_sharp_s :
    trimCh ("ß" : String).data ≠ [] ∧
      ¬ cleanString (cleanString (some "ß")) = cleanString (some "ß") := by
  decide

/-- Claim C10 as amended.  On every string all of whose characters are ASCII
(code point below 128) and whose trimmed form is non-empty, `cleanString` is
idempotent: re-normalizing an already-normalized label changes nothing. -/
theorem c10_cleanString_idempotent_ascii :
    ∀ s : String, (∀ c ∈ s.data, c.toNat < 128) → trimCh s.data ≠ [] →
      cleanString (cleanString (some s)) = cleanString (some s) := by
  intro s hascii h
  have hs : ¬ s = "" := by
    intro he
    subst he
    exact h rfl
  have hb1 : cleanStringCore s.data = asciiCore s.data := cleanStringCore_eq_asciiCore hascii
  have hcore : cleanStringCore s.data ≠ [] := by
    rw [hb1]
    exact asciiCore_ne_nil h
  have h1 : cleanString (some s) = some (String.mk (cleanStringCore s.data)) := by
    simp only [cleanString, if_neg hs]
  rw [h1]
  have h2 : ¬ String.mk (cleanStringCore s.data) = "" := by
    intro he
    exact hcore (congrArg String.data he)
  simp only [cleanString, if_neg h2]
  show some (String.mk (cleanStringCore (cleanStringCore s.data)))
      = some (String.mk (cleanStringCore s.data))
  rw [hb1, cleanStringCore_eq_asciiCore (asciiCore_ascii hascii), asciiCore_idem]

/-- Witness for the amended claim C10 at the concrete ASCII label
"mood disorder". -/
theorem c10_witness :
    (∀ c ∈ ("mood disorder" : String).data, c.toNat < 128) ∧
      trimCh ("mood disorder" : String).data ≠ [] ∧
      cleanString (cleanString (some "mood disorder")) = cleanString (some "mood disorder") :=
  ⟨by decide, by decide,
    c10_cleanString_idempotent_ascii "mood disorder" (by decide) (by decide)⟩

end Dashboard
